import Mathlib

/-!
Verification development for the molstar reactive state-transform graph
sample.  The first part embeds the `StructureHierarchyManager`
(src/mol-plugin-state/manager/structure/hierarchy.ts): the selection
resynchronization (`syncCurrent`, `sync`), the explicit selection commands
(`updateCurrent`) and the component grouping (`getComponentGroups`).
The later parts embed the test transforms of
src/mol-math/geometry/spacegroup/construction.ts and model the
`mol-state` core (state tree, builder edits, serialization,
reconciliation) from the specification, since its implementation is not
part of the sample sources.
-/

namespace Molstar

/-! ## Hierarchy manager: data model

A `HRef` stands for a `HierarchyRef` (trajectory / model / structure
reference).  The only field the manager's selection logic reads is
`cell.transform.ref`, modelled as `ref`; `payload` keeps distinct
objects with equal refs distinguishable, mirroring object identity. -/

structure HRef where
  ref : String
  payload : Nat := 0
deriving Repr, DecidableEq

/-- Association-list lookup, modelling `Map.get` on `hierarchy.refs`. -/
def lookupRef : List (String × HRef) → String → Option HRef
  | [], _ => none
  | (k, v) :: rest, r => if k = r then some v else lookupRef rest r

/-- The projection lists plus the `refs` map of a `StructureHierarchy`,
as consumed by `syncCurrent`/`sync`.  The three candidate pools are kept
as flat lists of refs (nesting is irrelevant to `syncCurrent`). -/
structure Hierarchy where
  refs : List (String × HRef)
  trajectories : List HRef
  models : List HRef
  structures : List HRef
deriving Repr, DecidableEq

/-- The source's recurring pattern `newCurrent.length === 0 ?
(all.length > 0 ? [all[0]] : []) : newCurrent`. -/
def pick (newCurrent all : List HRef) : List HRef :=
  if newCurrent = [] then all.take 1 else newCurrent

/-- `StructureHierarchyManager.syncCurrent` (hierarchy.ts, lines 63-85):
resynchronize one selection list `current` against the new candidate
pool `all`, with the pending-selection set `next`
(`this.nextSelection`). -/
def syncCurrent (next : List String) (refs : List (String × HRef))
    (current all : List HRef) : List HRef :=
  if next ≠ [] then
    pick (all.filter (fun r => next.contains r.ref)) all
  else if current = [] then all.take 1
  else
    pick (current.filterMap (fun c => lookupRef refs c.ref)) all

/-- The selection part of `StructureHierarchyManagerState`. -/
structure Selection where
  trajectories : List HRef
  models : List HRef
  structures : List HRef
deriving Repr, DecidableEq

/-- Manager state relevant to `sync`: the published selection and the
private pending set `nextSelection`. -/
structure ManagerState where
  selection : Selection
  nextSelection : List String
deriving Repr, DecidableEq

/-- The result of `buildStructureHierarchy`: the rebuilt hierarchy plus
the change summary that `sync` inspects for its early return. -/
structure HierarchyUpdate where
  hierarchy : Hierarchy
  added : List String
  updated : List String
  removed : List String
deriving Repr, DecidableEq

/-- `StructureHierarchyManager.sync` (hierarchy.ts, lines 87-105): if
the update changed nothing the state is kept as is (note: the pending
set is NOT cleared on this path); otherwise the three selection lists
are resynchronized and the pending set is cleared. -/
def sync (st : ManagerState) (u : HierarchyUpdate) : ManagerState :=
  if u.added = [] ∧ u.updated = [] ∧ u.removed = [] then st
  else
    { selection :=
        ⟨syncCurrent st.nextSelection u.hierarchy.refs
           st.selection.trajectories u.hierarchy.trajectories,
         syncCurrent st.nextSelection u.hierarchy.refs
           st.selection.models u.hierarchy.models,
         syncCurrent st.nextSelection u.hierarchy.refs
           st.selection.structures u.hierarchy.structures⟩,
      nextSelection := [] }

/-! ## Hierarchy manager: nested projection and `updateCurrent` -/

/-- A structure reference in the typed hierarchy. -/
structure SRef where
  ref : String
deriving Repr, DecidableEq

/-- A model reference: its own ref and its structure children. -/
structure MRef where
  ref : String
  structures : List SRef
deriving Repr, DecidableEq

/-- A trajectory reference: its own ref and its model children. -/
structure TRef where
  ref : String
  models : List MRef
deriving Repr, DecidableEq

inductive CurrentAction where
  | add
  | remove
deriving Repr, DecidableEq

/-- Membership in the ref set built by `updateCurrent`:
`SetUtils.union(seletionSet, refs)` for `add`,
`SetUtils.difference(seletionSet, refs)` for `remove`. -/
def inCurrentSet (selSet refs : List String) (action : CurrentAction) (s : String) : Bool :=
  match action with
  | .add => selSet.contains s || refs.contains s
  | .remove => selSet.contains s && !(refs.contains s)

/-- `StructureHierarchyManager.updateCurrent` (hierarchy.ts, lines
107-136), restricted to the selection it computes: walk the hierarchy
trajectory-major and keep exactly the members of the new ref set.  The
commented-out first-candidate fallback of the source is, faithfully,
absent. -/
def updateCurrent (hierarchy : List TRef) (selSet refs : List String)
    (action : CurrentAction) : List TRef × List MRef × List SRef :=
  let mem := inCurrentSet selSet refs action
  (hierarchy.filter (fun t => mem t.ref),
   (hierarchy.flatMap TRef.models).filter (fun m => mem m.ref),
   ((hierarchy.flatMap TRef.models).flatMap MRef.structures).filter (fun s => mem s.ref))

/-! ## Hierarchy manager: component grouping -/

/-- A structure component; `key` is `string | undefined` in the source
(`none` models `undefined`), `cid` keeps components distinguishable. -/
structure SComponent where
  key : Option String
  cid : Nat := 0
deriving Repr, DecidableEq

/-- A structure as seen by `getComponentGroups`: its component list. -/
structure CStructure where
  components : List SComponent
deriving Repr, DecidableEq

/-- The JavaScript truthiness test `!key` skips `undefined` and the
empty string; `goodKey` returns the key exactly when it is kept. -/
def goodKey : Option String → Option String
  | none => none
  | some s => if s = "" then none else some s

/-- Append component `c` to the group of key `k`, creating the group at
the end on first encounter — the functional reading of the source's
`map.get/map.set/groups.push` bookkeeping. -/
def addComp (acc : List (String × List SComponent)) (k : String) (c : SComponent) :
    List (String × List SComponent) :=
  match acc with
  | [] => [(k, [c])]
  | (k', g) :: rest =>
    if k' = k then (k', g ++ [c]) :: rest else (k', g) :: addComp rest k c

/-- One step of the grouping loop body: components with a falsy key are
skipped (`if (!key) continue`). -/
def groupStep (acc : List (String × List SComponent)) (c : SComponent) :
    List (String × List SComponent) :=
  match goodKey c.key with
  | none => acc
  | some k => addComp acc k c

/-- `StructureHierarchyManager.getComponentGroups` (hierarchy.ts, lines
203-226). -/
def getComponentGroups : List CStructure → List (List SComponent)
  | [] => []
  | [s] => s.components.map (fun c => [c])
  | ss => (((ss.map CStructure.components).flatten).foldl groupStep []).map Prod.snd

/-- Specification-side grouping: the pairs (key, component) with a
non-falsy key, in traversal order. -/
def goodPairs (cs : List SComponent) : List (String × SComponent) :=
  cs.filterMap (fun c => (goodKey c.key).map (fun k => (k, c)))

/-- Keys in first-encounter order, duplicates dropped. -/
def firstKeys (ks : List String) : List String :=
  ks.foldl (fun acc k => if k ∈ acc then acc else acc ++ [k]) []

/-- Specification-side `getComponentGroups` for two or more structures,
following the claim's words: group the components by key in
first-encounter order, omitting every component whose key is empty or
undefined. -/
def groupsSpec (ss : List CStructure) : List (List SComponent) :=
  let ps := goodPairs ((ss.map CStructure.components).flatten)
  (firstKeys (ps.map Prod.fst)).map
    (fun k => (ps.filter (fun p => p.1 = k)).map Prod.snd)

/-- Read a group off the insertion-ordered association list; the empty
group for an absent key. -/
def findGroup : List (String × List SComponent) → String → List SComponent
  | [], _ => []
  | (k', g) :: rest, k => if k' = k then g else findGroup rest k

/-- Concrete manager state with a non-empty pending selection. -/
def exSt : ManagerState := ⟨⟨[⟨"old", 0⟩], [], []⟩, ["n"]⟩

/-- Concrete non-trivial hierarchy update. -/
def exU : HierarchyUpdate := ⟨⟨[], [⟨"n", 1⟩, ⟨"m", 2⟩], [], []⟩, ["n"], [], []⟩

/-! ## State objects and test transforms (construction.ts)

Parameters are plain structured values (numeric fields in all sample
transforms); `SObj` is the closed set of state-object variants of the
test file: `Root`, `Square {a}`, `Circle {r}`, `Area {volume}`, each
carrying its `label` prop. -/

abbrev Params := List (String × Int)

/-- Read a numeric parameter field. -/
def getParam (p : Params) (k : String) : Int :=
  match p with
  | [] => 0
  | (k', v) :: rest => if k' = k then v else getParam rest k

inductive SObj where
  | root (label : String)
  | square (label : String) (a : Int)
  | circle (label : String) (r : Int)
  | area (label : String) (volume : Int)
deriving Repr, DecidableEq

/-- The runtime type tag of a state object — the first argument of the
`_obj` factory: `'root'`, `'square'`, `'circle'`, `'volume'`. -/
def SObj.typeName : SObj → String
  | .root _ => "root"
  | .square _ _ => "square"
  | .circle _ _ => "circle"
  | .area _ _ => "volume"

def SObj.label : SObj → String
  | .root l => l
  | .square l _ => l
  | .circle l _ => l
  | .area l _ => l

/-- `Transformer.UpdateResult`; `updated` carries the mutated object. -/
inductive UpdateResult where
  | unchanged
  | updated (b : SObj)
  | recreated (b : SObj)
deriving Repr, DecidableEq

/-- A registered transform definition: kind identifier, declared
input/output type-tag sets, `apply` and `update`. -/
structure TransformerDef where
  name : String
  fromTypes : List String
  toTypes : List String
  apply : SObj → Params → Except String SObj
  update : SObj → SObj → Params → Params → Except String UpdateResult

/-- `Math.PI` is irrational and floating point; the circle branch of
`CaclArea` multiplies by it.  No claim depends on the value, so it is
modelled by an arbitrary integer constant. -/
def piApprox : Int := 3

/-- `CreateSquare` (construction.ts, lines 126-138). -/
def CreateSquare : TransformerDef where
  name := "create-square"
  fromTypes := ["root"]
  toTypes := ["square"]
  apply := fun _ p =>
    .ok (.square ("Square a=" ++ toString (getParam p "a")) (getParam p "a"))
  update := fun _ _ _ np =>
    .ok (.updated
      (.square ("Square a=" ++ toString (getParam np "a")) (getParam np "a")))

/-- `CreateCircle` (construction.ts, lines 140-152).  Note the source
declares `to: [Square]` while `apply` constructs a `Circle`. -/
def CreateCircle : TransformerDef where
  name := "create-circle"
  fromTypes := ["root"]
  toTypes := ["square"]
  apply := fun _ p =>
    .ok (.circle ("Circle r=" ++ toString (getParam p "r")) (getParam p "r"))
  update := fun _ _ _ np =>
    .ok (.updated
      (.circle ("Circle r=" ++ toString (getParam np "r")) (getParam np "r")))

/-- `CaclArea` (construction.ts, lines 154-169): squares the square's
side, or multiplies the circle's squared radius by pi; other parents
raise `Unknown object type.`.  `update` mutates only `b.data.volume`. -/
def CaclArea : TransformerDef where
  name := "calc-area"
  fromTypes := ["square", "circle"]
  toTypes := ["volume"]
  apply := fun a _ =>
    match a with
    | .square _ s => .ok (.area "Area" (s * s))
    | .circle _ r => .ok (.area "Area" (r * r * piApprox))
    | _ => .error "Unknown object type."
  update := fun a b _ _ =>
    match a with
    | .square _ s => .ok (.updated (.area b.label (s * s)))
    | .circle _ r => .ok (.updated (.area b.label (r * r * piApprox)))
    | _ => .error "Unknown object type."

/-- The transform registry of the test file. -/
def lookupTransformer : String → Option TransformerDef
  | "create-square" => some CreateSquare
  | "create-circle" => some CreateCircle
  | "calc-area" => some CaclArea
  | _ => none

/-! ## State tree (modelled from the spec)

The `mol-state` implementation (StateTree, builder, State) is not among
the sample sources — only its callers and tests are — so the tree, the
builder edits, serialization and reconciliation below are modelled from
the specification (§3, §4.2, §4.3, §6). -/

/-- Modelled from the spec: decoration flags of a Tree Node (§3),
presentation hints only. -/
structure Flags where
  isCollapsed : Bool := false
  isHidden : Bool := false
  isLocked : Bool := false
  isGhost : Bool := false
deriving Repr, DecidableEq

/-- Modelled from the spec: a Tree Node (§3) — stable reference id,
transform-kind identifier, parameter value, version counter, flags. -/
structure NodeData where
  ref : String
  kind : String
  params : Params
  version : Nat
  flags : Flags
deriving Repr, DecidableEq

/-- Modelled from the spec: the State Tree (§3) as the rooted ordered
tree it describes — each node carries its data and its ordered children
(insertion order is the evaluation/display order). -/
inductive STree where
  | node (d : NodeData) (cs : List STree)
deriving Repr

def STree.data : STree → NodeData
  | .node d _ => d

def STree.children : STree → List STree
  | .node _ cs => cs

mutual

/-- Pre-order list of reference ids of a tree (`subtreeRefs`). -/
def refsT : STree → List String
  | .node d cs => d.ref :: refsF cs

/-- Pre-order list of reference ids of a forest. -/
def refsF : List STree → List String
  | [] => []
  | t :: ts => refsT t ++ refsF ts

end

mutual

/-- Find the subtree rooted at the node with reference id `r`
(pre-order first match). -/
def findT : STree → String → Option STree
  | .node d cs, r => if d.ref = r then some (.node d cs) else findF cs r

def findF : List STree → String → Option STree
  | [], _ => none
  | t :: ts, r =>
    match findT t r with
    | some u => some u
    | none => findF ts r

end

/-- `node(ref)`: the node data stored at a reference id. -/
def nodeOf (t : STree) (r : String) : Option NodeData :=
  (findT t r).map STree.data

/-- `children(ref)`: the ordered child reference ids of a node. -/
def childRefsOf (t : STree) (r : String) : Option (List String) :=
  (findT t r).map (fun u => u.children.map (fun c => c.data.ref))

mutual

/-- `parent(ref)`: the reference id of the node owning `r` as a direct
child. -/
def parentT : STree → String → Option String
  | .node d cs, r =>
    if (cs.map (fun c => c.data.ref)).contains r then some d.ref
    else parentF cs r

def parentF : List STree → String → Option String
  | [], _ => none
  | t :: ts, r =>
    match parentT t r with
    | some p => some p
    | none => parentF ts r

end

mutual

/-- Append subtree `s` as the last child of the (first) node with
reference id `p`; identity when `p` is absent. -/
def graftT : STree → String → STree → STree
  | .node d cs, p, s =>
    if d.ref = p then .node d (cs ++ [s]) else .node d (graftF cs p s)

def graftF : List STree → String → STree → List STree
  | [], _, _ => []
  | t :: ts, p, s => graftT t p s :: graftF ts p s

end

/-! ## Builder edits (modelled from the spec, §4.2) -/

/-- Modelled from the spec: the structural error taxonomy (§7). -/
inductive TreeError where
  | unknownRef
  | unknownParent
  | duplicateRef
  | cycle
  | typeMismatch
  | kindNotFound
deriving Repr, DecidableEq

/-- New node data for `updateParams`: replace the parameters and bump
the version counter. -/
def bumpWith (p : Params) (n : NodeData) : NodeData :=
  { n with params := p, version := n.version + 1 }

mutual

/-- Replace the parameters (and bump the version) of every node with
reference id `r`; with distinct reference ids this is the single
targeted node. -/
def updT (r : String) (p : Params) : STree → STree
  | .node d cs =>
    .node (if d.ref = r then bumpWith p d else d) (updF r p cs)

def updF (r : String) (p : Params) : List STree → List STree
  | [] => []
  | t :: ts => updT r p t :: updF r p ts

end

/-- Modelled from the spec: `updateParams(ref, newParams)` — fails
`UnknownRef` if `ref` is absent; otherwise replaces the parameters and
bumps the node's version (§4.2). -/
def updateParams (t : STree) (r : String) (p : Params) : Except TreeError STree :=
  match findT t r with
  | some _ => .ok (updT r p t)
  | none => .error .unknownRef

mutual

/-- Remove every subtree rooted at reference id `r` from the children
forests; the root node itself is never removed (`delete` is a silent
no-op on the root). -/
def delT : STree → String → STree
  | .node d cs, r => .node d (delF cs r)

def delF : List STree → String → List STree
  | [], _ => []
  | t :: ts, r =>
    if t.data.ref = r then delF ts r else delT t r :: delF ts r

end

/-- The declared output type set of a node: the root node (empty kind)
produces the root object type, other nodes their transform's declared
`to` set. -/
def nodeOutTypes (kind : String) : List String :=
  if kind = "" then ["root"]
  else
    match lookupTransformer kind with
    | some tr => tr.toTypes
    | none => []

/-- Modelled from the spec: `applyTransform(parentRef, kind, params,
explicitRef)` — fails `UnknownParent` if the parent is absent,
`DuplicateRef` if the explicit ref collides, the registry's not-found
error for an unknown kind, and `TypeMismatch` when the parent's
declared output type set does not meet the transform's accepted input
set; otherwise appends a fresh node under the parent (§4.2). -/
def applyTransform (t : STree) (parentRef kind : String) (p : Params)
    (ref : String) : Except TreeError STree :=
  match findT t parentRef with
  | none => .error .unknownParent
  | some parent =>
    if (findT t ref).isSome then .error .duplicateRef
    else
      match lookupTransformer kind with
      | none => .error .kindNotFound
      | some tr =>
        if (nodeOutTypes parent.data.kind).any (fun ty => tr.fromTypes.contains ty) then
          .ok (graftT t parentRef (.node ⟨ref, kind, p, 0, {}⟩ []))
        else .error .typeMismatch

/-- Modelled from the spec: `reparent(ref, newParentRef)` — fails
`Cycle` if the new parent is `ref` itself or one of its descendants;
otherwise moves the subtree under the new parent (§4.2). -/
def reparent (t : STree) (r p : String) : Except TreeError STree :=
  if p = r then .error .cycle
  else
    match findT t r with
    | none => .error .unknownRef
    | some u =>
      if p ∈ refsF u.children then .error .cycle
      else
        match findT t p with
        | none => .error .unknownParent
        | some _ => .ok (graftT (delT t r) p u)

/-- A builder edit (§4.2). -/
inductive Edit where
  | apply (parentRef kind : String) (params : Params) (ref : String)
  | update (ref : String) (params : Params)
  | delete (ref : String)
  | reparent (ref newParentRef : String)
deriving Repr, DecidableEq

def applyEdit (t : STree) : Edit → Except TreeError STree
  | .apply parentRef kind p ref => applyTransform t parentRef kind p ref
  | .update ref p => updateParams t ref p
  | .delete ref => .ok (delT t ref)
  | .reparent ref newParentRef => reparent t ref newParentRef

/-- Run an edit script left to right, stopping at the first structural
error. -/
def applyEdits (t : STree) : List Edit → Except TreeError STree
  | [] => .ok t
  | e :: es =>
    match applyEdit t e with
    | .ok t' => applyEdits t' es
    | .error err => .error err

/-- Modelled from the spec: a transaction is atomic — on a structural
validation failure the entire edit script is rejected and the tree is
left unchanged (§5). -/
def commitTx (t : STree) (es : List Edit) : STree :=
  match applyEdits t es with
  | .ok t' => t'
  | .error _ => t

/-- A transaction consisting only of `updateParams` calls. -/
def commitUpdates (t : STree) : List (String × Params) → Except TreeError STree
  | [] => .ok t
  | (r, p) :: rest =>
    match updateParams t r p with
    | .ok t' => commitUpdates t' rest
    | .error e => .error e

/-! ## Serialization (modelled from the spec, §6) -/

/-- Modelled from the spec: a serialized node record `{ref, parentRef,
kind, params, flags}` — versions and computed objects are not part of
the format (§6). -/
structure SerRecord where
  ref : String
  parentRef : String
  kind : String
  params : Params
  flags : Flags
deriving Repr, DecidableEq

def recOf (p : String) (d : NodeData) : SerRecord :=
  ⟨d.ref, p, d.kind, d.params, d.flags⟩

mutual

/-- Serialize a tree under parent ref `p`, pre-order. -/
def serT (p : String) : STree → List SerRecord
  | .node d cs => recOf p d :: serF d.ref cs

def serF (p : String) : List STree → List SerRecord
  | [] => []
  | t :: ts => serT p t ++ serF p ts

end

/-- Modelled from the spec: the serialized tree format — the ordered
node-record list plus the root ref; the root record carries itself as
parent. -/
structure SerTree where
  rootRef : String
  records : List SerRecord
deriving Repr, DecidableEq

def toSerializable (t : STree) : SerTree :=
  ⟨t.data.ref, serT t.data.ref t⟩

/-- A freshly loaded node: version reset to 0, no children yet. -/
def leafOf (r : SerRecord) : STree :=
  .node ⟨r.ref, r.kind, r.params, 0, r.flags⟩ []

/-- Attach one record as the last child of its parent. -/
def insRec (t : STree) (r : SerRecord) : STree :=
  graftT t r.parentRef (leafOf r)

def rebuild (t : STree) (rs : List SerRecord) : STree :=
  rs.foldl insRec t

/-- Modelled from the spec: `fromSerializable` — reconstruct the tree
from the record list, inserting each record under its parent in order;
versions are reset on load. -/
def fromSerializable (s : SerTree) : Option STree :=
  match s.records with
  | [] => none
  | r :: rest => if r.ref = s.rootRef then some (rebuild (leafOf r) rest) else none

mutual

/-- Reset every node's version counter to 0. -/
def resetT : STree → STree
  | .node d cs => .node { d with version := 0 } (resetF cs)

def resetF : List STree → List STree
  | [] => []
  | t :: ts => resetT t :: resetF ts

end

/-- Graft a forest one subtree at a time as trailing children of the
node with reference id `p`. -/
def graftManyT (u : STree) (p : String) (fs : List STree) : STree :=
  fs.foldl (fun a s => graftT a p s) u

/-- The version-free shape of a node: everything serialization keeps. -/
structure NodeShape where
  ref : String
  kind : String
  params : Params
  flags : Flags
deriving Repr, DecidableEq

mutual

/-- Forget the version counters, keeping refs, kinds, params, flags and
the parent/children structure. -/
def shapeT : STree → List NodeShape
  | .node d cs => ⟨d.ref, d.kind, d.params, d.flags⟩ :: shapeF cs

def shapeF : List STree → List NodeShape
  | [] => []
  | t :: ts => shapeT t ++ shapeF ts

end

/-! ## Settled reconciliation statuses (modelled from the spec, §4.3) -/

/-- Cell status (§3); `processing` is a mid-flight state and never
survives a settled reconciliation. -/
inductive CellStatus where
  | pending
  | processing
  | ok
  | error
deriving Repr, DecidableEq

mutual

/-- Modelled from the spec: the settled statuses after reconciliation
(§4.3 steps 4-5).  `fails r` tells whether the transform application
at node `r` fails; a node below a non-`ok` parent is forced `pending`
and never attempted (the short-circuit rule). -/
def settleT (fails : String → Bool) (parentOk : Bool) : STree → List (String × CellStatus)
  | .node d cs =>
    if parentOk then
      if fails d.ref then (d.ref, .error) :: settleF fails false cs
      else (d.ref, .ok) :: settleF fails true cs
    else (d.ref, .pending) :: settleF fails false cs

def settleF (fails : String → Bool) (parentOk : Bool) : List STree → List (String × CellStatus)
  | [] => []
  | t :: ts => settleT fails parentOk t ++ settleF fails parentOk ts

end

/-- Status lookup in a settled cell list (first match). -/
def statusOf (cells : List (String × CellStatus)) (r : String) : Option CellStatus :=
  match cells with
  | [] => none
  | (k, v) :: rest => if k = r then some v else statusOf rest r

/-! ## Runtime reconciliation with objects (modelled from the spec, §4.3) -/

/-- A live cell: status, computed object (present iff `ok`), and the
parameters it was computed against. -/
structure CellEntry where
  ref : String
  status : CellStatus
  obj : Option SObj
  params : Params
deriving Repr, DecidableEq

/-- The per-cell events of the reconciliation stream (§4.3 step 6). -/
inductive Event where
  | created (ref : String)
  | removed (ref : String)
  | updated (ref : String)
deriving Repr, DecidableEq

def lookupCell : List CellEntry → String → Option CellEntry
  | [], _ => none
  | c :: rest, r => if c.ref = r then some c else lookupCell rest r

/-- Modelled from the spec: process one stale-set member (§4.3 step 4).
Returns the new cell, its events, and whether a new object reference
was produced (which makes the children stale transitively, §4.3 step
2).  A new node is `apply`-ed; an existing node whose own params
changed or whose parent produced a new object is `update`-d:
`Unchanged` keeps the object, `Updated` replaces it in place keeping
the cell's identity (one `updated` event), `Recreate` is
drop-then-apply; errors localize to the cell. -/
def applyCell (old : List CellEntry) (parentObj : Option SObj)
    (parentChanged : Bool) (d : NodeData) : CellEntry × List Event × Bool :=
  match parentObj with
  | none => (⟨d.ref, .pending, none, d.params⟩, [], false)
  | some po =>
    match lookupTransformer d.kind with
    | none => (⟨d.ref, .error, none, d.params⟩, [], false)
    | some tr =>
      match lookupCell old d.ref with
      | none =>
        match tr.apply po d.params with
        | .ok o => (⟨d.ref, .ok, some o, d.params⟩, [.created d.ref], true)
        | .error _ => (⟨d.ref, .error, none, d.params⟩, [.created d.ref], false)
      | some oldCell =>
        if d.params = oldCell.params ∧ parentChanged = false then
          (⟨d.ref, oldCell.status, oldCell.obj, oldCell.params⟩, [], false)
        else
          match oldCell.obj with
          | none =>
            match tr.apply po d.params with
            | .ok o => (⟨d.ref, .ok, some o, d.params⟩, [.updated d.ref], true)
            | .error _ => (⟨d.ref, .error, none, d.params⟩, [], false)
          | some b =>
            match tr.update po b oldCell.params d.params with
            | .ok .unchanged => (⟨d.ref, .ok, some b, d.params⟩, [], false)
            | .ok (.updated o) => (⟨d.ref, .ok, some o, d.params⟩, [.updated d.ref], true)
            | .ok (.recreated o) =>
              (⟨d.ref, .ok, some o, d.params⟩, [.removed d.ref, .created d.ref], true)
            | .error _ => (⟨d.ref, .error, none, d.params⟩, [], false)

mutual

/-- Modelled from the spec: reconcile a (sub)tree below a parent whose
object is `parentObj` (`none` when the parent is not `ok`), ancestors
first. -/
def reconT (old : List CellEntry) (parentObj : Option SObj)
    (parentChanged : Bool) : STree → List CellEntry × List Event
  | .node d cs =>
    let r := applyCell old parentObj parentChanged d
    let rest := reconF old
      (match r.1.status with | .ok => r.1.obj | _ => none) r.2.2 cs
    (r.1 :: rest.1, r.2.1 ++ rest.2)

def reconF (old : List CellEntry) (parentObj : Option SObj)
    (parentChanged : Bool) : List STree → List CellEntry × List Event
  | [] => ([], [])
  | t :: ts =>
    let r1 := reconT old parentObj parentChanged t
    let r2 := reconF old parentObj parentChanged ts
    (r1.1 ++ r2.1, r1.2 ++ r2.2)

end

/-- Modelled from the spec: reconcile a committed tree against the
previous cells.  The root cell holds the fixed root object created
with the State. -/
def reconcile (old : List CellEntry) (rootObj : SObj) : STree → List CellEntry × List Event
  | .node d cs =>
    let rest := reconF old (some rootObj) false cs
    (⟨d.ref, .ok, some rootObj, d.params⟩ :: rest.1,
     (if (lookupCell old d.ref).isSome then ([] : List Event) else [.created d.ref]) ++ rest.2)

/-! ## The square/area scenario (construction.ts, `testState`) -/

def rootObj : SObj := .root "Root"

def rootNode : NodeData := ⟨"root", "", [], 0, {}⟩

def tree0 : STree := .node rootNode []

def cells0 : List CellEntry := [⟨"root", .ok, some rootObj, []⟩]

/-- The two builder steps of the scenario. -/
def scenBuild : Except TreeError STree :=
  match applyTransform tree0 "root" "create-square" [("a", 10)] "sq" with
  | .ok t => applyTransform t "sq" "calc-area" [] "area"
  | .error e => .error e

/-- The tree the builder produces. -/
def tree1 : STree :=
  .node rootNode
    [.node ⟨"sq", "create-square", [("a", 10)], 0, {}⟩
      [.node ⟨"area", "calc-area", [], 0, {}⟩ []]]

/-- The tree after `updateParams("sq", {a:15})`. -/
def tree2 : STree := updT "sq" [("a", 15)] tree1

/-- Cells after committing the initial two-transform tree. -/
def cells1 : List CellEntry := (reconcile cells0 rootObj tree1).1

/-! ## Theorems: selection resynchronization -/

/-- C4 counterexample: with a non-empty pending set matching two
candidates, a previous selection that is found nowhere in the new
projection, and a non-empty candidate pool, the resynchronized
selection has two elements — not "exactly the one-element list
containing the first candidate" as the claim states. -/
theorem syncCurrent_pending_two_candidates :
    syncCurrent ["x", "y"] [] [⟨"c", 0⟩] [⟨"x", 0⟩, ⟨"y", 0⟩]
      = [⟨"x", 0⟩, ⟨"y", 0⟩] ∧
    lookupRef [] "c" = none ∧
    ([⟨"x", 0⟩, ⟨"y", 0⟩] : List HRef) ≠ [] ∧
    syncCurrent ["x", "y"] [] [⟨"c", 0⟩] [⟨"x", 0⟩, ⟨"y", 0⟩] ≠ [⟨"x", 0⟩] := by
  refine ⟨rfl, rfl, by simp, by simp [syncCurrent, pick]⟩

/-- C4 (amended): when the pending-selection set is empty, a non-empty
candidate pool and a previous selection none of whose refs is found in
the new projection yield exactly the one-element list holding the first
candidate; and, for any pending set, the resynchronized selection is
never empty while candidates exist. -/
theorem syncCurrent_carry_fallback (refs : List (String × HRef))
    (current : List HRef) (a : HRef) (rest : List HRef)
    (hmiss : ∀ c ∈ current, lookupRef refs c.ref = none) :
    syncCurrent [] refs current (a :: rest) = [a] ∧
    ∀ next, syncCurrent next refs current (a :: rest) ≠ [] := by
  constructor
  · have hfm : current.filterMap (fun c => lookupRef refs c.ref) = [] := by
      rw [List.filterMap_eq_nil_iff]
      intro c hc
      exact hmiss c hc
    by_cases hc : current = [] <;> simp [syncCurrent, pick, hc, hfm]
  · intro next
    unfold syncCurrent pick
    split_ifs <;> simp_all

/-- Witness for `syncCurrent_carry_fallback` at a concrete input. -/
theorem syncCurrent_carry_fallback_witness :
    syncCurrent [] [("z", ⟨"z", 7⟩)] [⟨"c", 0⟩] [⟨"x", 1⟩, ⟨"y", 2⟩] = [⟨"x", 1⟩] ∧
    ∀ next, syncCurrent next [("z", ⟨"z", 7⟩)] [⟨"c", 0⟩] [⟨"x", 1⟩, ⟨"y", 2⟩] ≠ [] :=
  syncCurrent_carry_fallback [("z", ⟨"z", 7⟩)] [⟨"c", 0⟩] ⟨"x", 1⟩ [⟨"y", 2⟩]
    (by intro c hc; simp at hc; subst hc; rfl)

/-- C5: when the pending-selection set is non-empty and the hierarchy
update is non-trivial, each resynchronized selection list is exactly
the candidates whose refs are in the pending set (first-candidate
fallback if none match) — independent of the carried-over previous
selection — and the pending set is cleared by the cycle. -/
theorem sync_pending_override (st : ManagerState) (u : HierarchyUpdate)
    (hp : st.nextSelection ≠ [])
    (hu : ¬(u.added = [] ∧ u.updated = [] ∧ u.removed = [])) :
    (sync st u).nextSelection = [] ∧
    (sync st u).selection.trajectories =
      pick (u.hierarchy.trajectories.filter
        (fun r => st.nextSelection.contains r.ref)) u.hierarchy.trajectories ∧
    (sync st u).selection.models =
      pick (u.hierarchy.models.filter
        (fun r => st.nextSelection.contains r.ref)) u.hierarchy.models ∧
    (sync st u).selection.structures =
      pick (u.hierarchy.structures.filter
        (fun r => st.nextSelection.contains r.ref)) u.hierarchy.structures := by
  unfold sync
  rw [if_neg hu]
  refine ⟨rfl, ?_, ?_, ?_⟩ <;>
    · show syncCurrent _ _ _ _ = _
      unfold syncCurrent
      rw [if_pos hp]

/-- Witness for `sync_pending_override` at a concrete input. -/
theorem sync_pending_override_witness :
    (sync exSt exU).nextSelection = [] ∧
    (sync exSt exU).selection.trajectories =
      pick (exU.hierarchy.trajectories.filter
        (fun r => exSt.nextSelection.contains r.ref)) exU.hierarchy.trajectories ∧
    (sync exSt exU).selection.models =
      pick (exU.hierarchy.models.filter
        (fun r => exSt.nextSelection.contains r.ref)) exU.hierarchy.models ∧
    (sync exSt exU).selection.structures =
      pick (exU.hierarchy.structures.filter
        (fun r => exSt.nextSelection.contains r.ref)) exU.hierarchy.structures :=
  sync_pending_override exSt exU (by simp [exSt]) (by simp [exU])

/-- C8: an explicit `updateCurrent(refs, remove)` whose refs cover the
whole current selection set yields empty trajectory, model and
structure selections even though the hierarchy's candidate pool is
non-empty — the first-candidate fallback is not applied on this path. -/
theorem updateCurrent_remove_can_empty :
    updateCurrent [⟨"t", [⟨"m", [⟨"s"⟩]⟩]⟩] ["t", "m", "s"] ["t", "m", "s"]
      CurrentAction.remove = ([], [], []) ∧
    ([⟨"t", [⟨"m", [⟨"s"⟩]⟩]⟩] : List TRef) ≠ [] := by
  exact ⟨rfl, by simp⟩

/-! ## Theorems: component grouping -/

theorem addComp_keys (acc : List (String × List SComponent)) (k : String) (c : SComponent) :
    (addComp acc k c).map Prod.fst =
      if k ∈ acc.map Prod.fst then acc.map Prod.fst else acc.map Prod.fst ++ [k] := by
  induction acc with
  | nil => simp [addComp]
  | cons p rest ih =>
    obtain ⟨k', g⟩ := p
    by_cases h : k' = k
    · subst h
      simp [addComp]
    · simp only [addComp, if_neg h, List.map_cons, ih, List.mem_cons]
      have hne : ¬k = k' := fun hkk => h hkk.symm
      by_cases hmem : k ∈ rest.map Prod.fst <;> simp [hmem, hne]

theorem findGroup_addComp (acc : List (String × List SComponent)) (k : String)
    (c : SComponent) (k' : String) :
    findGroup (addComp acc k c) k' =
      if k' = k then findGroup acc k' ++ [c] else findGroup acc k' := by
  induction acc with
  | nil =>
    by_cases h : k' = k
    · subst h; simp [addComp, findGroup]
    · simp [addComp, findGroup, h, Ne.symm h]
  | cons p rest ih =>
    obtain ⟨k0, g⟩ := p
    by_cases h0 : k0 = k
    · subst h0
      by_cases h1 : k' = k0
      · subst h1; simp [addComp, findGroup]
      · simp [addComp, findGroup, h1, Ne.symm h1]
    · by_cases h1 : k0 = k'
      · subst h1
        simp [addComp, findGroup, h0, fun h => h0 (h : k0 = k)]
      · simp [addComp, findGroup, h0, h1, ih]

theorem goodPairs_cons (c : SComponent) (cs : List SComponent) :
    goodPairs (c :: cs) =
      match goodKey c.key with
      | none => goodPairs cs
      | some k => (k, c) :: goodPairs cs := by
  rw [goodPairs, List.filterMap_cons]
  cases goodKey c.key <;> rfl

theorem foldl_groupStep_eq (cs : List SComponent) (acc : List (String × List SComponent)) :
    cs.foldl groupStep acc =
      (goodPairs cs).foldl (fun a p => addComp a p.1 p.2) acc := by
  induction cs generalizing acc with
  | nil => rfl
  | cons c rest ih =>
    rw [List.foldl_cons]
    cases h : goodKey c.key with
    | none =>
      have hg : groupStep acc c = acc := by simp [groupStep, h]
      rw [hg, ih, goodPairs_cons, h]
    | some k =>
      have hg : groupStep acc c = addComp acc k c := by simp [groupStep, h]
      rw [hg, ih, goodPairs_cons, h, List.foldl_cons]

theorem keys_foldl_addComp (ps : List (String × SComponent))
    (acc : List (String × List SComponent)) :
    (ps.foldl (fun a p => addComp a p.1 p.2) acc).map Prod.fst =
      (ps.map Prod.fst).foldl
        (fun ks k => if k ∈ ks then ks else ks ++ [k]) (acc.map Prod.fst) := by
  induction ps generalizing acc with
  | nil => rfl
  | cons p rest ih =>
    rw [List.foldl_cons, ih, List.map_cons, List.foldl_cons, addComp_keys]

theorem findGroup_foldl_addComp (ps : List (String × SComponent))
    (acc : List (String × List SComponent)) (k : String) :
    findGroup (ps.foldl (fun a p => addComp a p.1 p.2) acc) k =
      findGroup acc k ++ (ps.filter (fun p => p.1 = k)).map Prod.snd := by
  induction ps generalizing acc with
  | nil => simp
  | cons p rest ih =>
    rw [List.foldl_cons, ih, findGroup_addComp]
    by_cases h : k = p.1
    · subst h
      simp [List.filter_cons, List.append_assoc]
    · have h' : ¬p.1 = k := fun hkk => h hkk.symm
      simp [h, h', List.filter_cons]

theorem snd_eq_keys_findGroup (acc : List (String × List SComponent))
    (h : (acc.map Prod.fst).Nodup) :
    acc.map Prod.snd = (acc.map Prod.fst).map (findGroup acc) := by
  induction acc with
  | nil => rfl
  | cons p rest ih =>
    obtain ⟨k, g⟩ := p
    simp only [List.map_cons] at h ⊢
    rw [List.nodup_cons] at h
    congr 1
    · simp [findGroup]
    · rw [ih h.2]
      apply List.map_congr_left
      intro k' hk'
      have : ¬k = k' := fun hkk => h.1 (hkk ▸ hk')
      simp [findGroup, this]

theorem insertFold_nodup (ks : List String) (init : List String) (h : init.Nodup) :
    (ks.foldl (fun a k => if k ∈ a then a else a ++ [k]) init).Nodup := by
  induction ks generalizing init with
  | nil => exact h
  | cons k rest ih =>
    rw [List.foldl_cons]
    apply ih
    by_cases hk : k ∈ init
    · simpa [hk] using h
    · simp only [hk, if_false]
      exact h.append (List.nodup_singleton k)
        (fun a ha hb => by simp at hb; exact hk (hb ▸ ha))

/-- C10: `getComponentGroups` on no structures yields no groups; on
exactly one structure it yields one singleton group per component,
falsy keys included; on two or more structures it groups the
components by key in first-encounter order, omitting every component
whose key is empty or undefined. -/
theorem getComponentGroups_cases :
    getComponentGroups [] = [] ∧
    (∀ s : CStructure, getComponentGroups [s] = s.components.map (fun c => [c])) ∧
    ∀ ss : List CStructure, 2 ≤ ss.length → getComponentGroups ss = groupsSpec ss := by
  refine ⟨rfl, fun s => rfl, ?_⟩
  intro ss hss
  match ss, hss with
  | s1 :: s2 :: rest, _ =>
    show ((((s1 :: s2 :: rest).map CStructure.components).flatten).foldl
            groupStep []).map Prod.snd = _
    rw [foldl_groupStep_eq]
    have hkeys := keys_foldl_addComp
      (goodPairs (((s1 :: s2 :: rest).map CStructure.components).flatten)) []
    have hnodup : ((goodPairs (((s1 :: s2 :: rest).map CStructure.components).flatten)).foldl
        (fun a p => addComp a p.1 p.2) []).map Prod.fst |>.Nodup := by
      rw [hkeys]
      exact insertFold_nodup _ [] List.nodup_nil
    rw [snd_eq_keys_findGroup _ hnodup, hkeys]
    show _ = groupsSpec (s1 :: s2 :: rest)
    rw [groupsSpec]
    apply List.map_congr_left
    intro k hk
    rw [findGroup_foldl_addComp]
    simp [findGroup]

/-- Witness for `getComponentGroups_cases` at a concrete input. -/
theorem getComponentGroups_cases_witness :
    getComponentGroups
        [⟨[⟨some "k", 1⟩, ⟨none, 2⟩]⟩, ⟨[⟨some "k", 3⟩, ⟨some "", 4⟩]⟩] =
      groupsSpec [⟨[⟨some "k", 1⟩, ⟨none, 2⟩]⟩, ⟨[⟨some "k", 3⟩, ⟨some "", 4⟩]⟩] :=
  getComponentGroups_cases.2.2
    [⟨[⟨some "k", 1⟩, ⟨none, 2⟩]⟩, ⟨[⟨some "k", 3⟩, ⟨some "", 4⟩]⟩] (by simp)

/-! ## Theorems: transform declarations -/

/-- C9: the transform registered as `create-circle` declares its output
type set as the singleton `square`, yet for every input its `apply`
returns an object whose runtime type is `circle`, which is not in the
declared set. -/
theorem createCircle_output_type_mismatch :
    CreateCircle.toTypes = ["square"] ∧
    "circle" ∉ CreateCircle.toTypes ∧
    ∀ (parent : SObj) (p : Params),
      (CreateCircle.apply parent p).map SObj.typeName = Except.ok "circle" :=
  ⟨rfl, by simp [CreateCircle], fun _ _ => rfl⟩

/-! ## Theorems: parameter-update stability (structural sharing) -/

theorem updT_node (r : String) (p : Params) (d : NodeData) (cs : List STree) :
    updT r p (.node d cs) =
      .node (if d.ref = r then bumpWith p d else d) (updF r p cs) := by
  rw [updT]

theorem updT_data (r : String) (p : Params) (t : STree) :
    (updT r p t).data = if t.data.ref = r then bumpWith p t.data else t.data := by
  cases t with
  | node d cs => rw [updT_node]; rfl

theorem updT_data_ref (r : String) (p : Params) (t : STree) :
    (updT r p t).data.ref = t.data.ref := by
  rw [updT_data]
  split <;> rfl

theorem updT_children (r : String) (p : Params) (t : STree) :
    (updT r p t).children = updF r p t.children := by
  cases t with
  | node d cs => rw [updT_node]; rfl

theorem updF_map_ref (r : String) (p : Params) (cs : List STree) :
    (updF r p cs).map (fun c => c.data.ref) = cs.map (fun c => c.data.ref) := by
  induction cs with
  | nil => rfl
  | cons t ts ih => rw [updF, List.map_cons, List.map_cons, updT_data_ref, ih]

theorem if_bump_ref (r : String) (p : Params) (d : NodeData) :
    (if d.ref = r then bumpWith p d else d).ref = d.ref := by
  split <;> rfl

mutual

theorem findT_updT (r : String) (p : Params) (x : String) (t : STree) :
    findT (updT r p t) x = (findT t x).map (updT r p) := by
  cases t with
  | node d cs =>
    rw [updT_node, findT, findT, if_bump_ref]
    by_cases h : d.ref = x
    · rw [if_pos h, if_pos h, Option.map_some', updT_node]
    · rw [if_neg h, if_neg h, findF_updF r p x cs]

theorem findF_updF (r : String) (p : Params) (x : String) (cs : List STree) :
    findF (updF r p cs) x = (findF cs x).map (updT r p) := by
  cases cs with
  | nil => rfl
  | cons t ts =>
    rw [updF, findF, findF, findT_updT r p x t, findF_updF r p x ts]
    cases findT t x <;> rfl

end

mutual

theorem parentT_updT (r : String) (p : Params) (x : String) (t : STree) :
    parentT (updT r p t) x = parentT t x := by
  cases t with
  | node d cs =>
    rw [updT_node, parentT, parentT, updF_map_ref, if_bump_ref,
        parentF_updF r p x cs]

theorem parentF_updF (r : String) (p : Params) (x : String) (cs : List STree) :
    parentF (updF r p cs) x = parentF cs x := by
  cases cs with
  | nil => rfl
  | cons t ts =>
    rw [updF, parentF, parentF, parentT_updT r p x t, parentF_updF r p x ts]

end

mutual

theorem findT_some_ref (t : STree) (x : String) (u : STree)
    (h : findT t x = some u) : u.data.ref = x := by
  cases t with
  | node d cs =>
    rw [findT] at h
    by_cases hd : d.ref = x
    · rw [if_pos hd] at h
      cases h
      exact hd
    · rw [if_neg hd] at h
      exact findF_some_ref cs x u h

theorem findF_some_ref (cs : List STree) (x : String) (u : STree)
    (h : findF cs x = some u) : u.data.ref = x := by
  cases cs with
  | nil => simp [findF] at h
  | cons t ts =>
    rw [findF] at h
    cases hv : findT t x with
    | some w =>
      rw [hv] at h
      injection h with h
      exact h ▸ findT_some_ref t x w hv
    | none =>
      rw [hv] at h
      exact findF_some_ref ts x u h

end

theorem nodeOf_updT (r : String) (p : Params) (t : STree) (x : String) :
    nodeOf (updT r p t) x =
      (nodeOf t x).map (fun n => if n.ref = r then bumpWith p n else n) := by
  unfold nodeOf
  rw [findT_updT]
  cases h : findT t x with
  | none => rfl
  | some u =>
    simp only [Option.map_some']
    rw [updT_data]

theorem childRefsOf_updT (r : String) (p : Params) (t : STree) (x : String) :
    childRefsOf (updT r p t) x = childRefsOf t x := by
  unfold childRefsOf
  rw [findT_updT]
  cases h : findT t x with
  | none => rfl
  | some u =>
    simp only [Option.map_some']
    rw [updT_children, updF_map_ref]

theorem nodeOf_some_ref (t : STree) (x : String) (n : NodeData)
    (h : nodeOf t x = some n) : n.ref = x := by
  unfold nodeOf at h
  cases hf : findT t x with
  | none => rw [hf] at h; simp at h
  | some u =>
    rw [hf, Option.map_some'] at h
    injection h with h
    exact h ▸ findT_some_ref t x u hf

theorem updateParams_ok (t : STree) (r : String) (p : Params) (t₁ : STree)
    (h : updateParams t r p = .ok t₁) :
    t₁ = updT r p t ∧ ∃ u, findT t r = some u := by
  unfold updateParams at h
  cases hf : findT t r with
  | none => rw [hf] at h; simp at h
  | some u =>
    rw [hf] at h
    injection h with h
    exact ⟨h.symm, u, rfl⟩

theorem commitUpdates_version_mono (edits : List (String × Params)) (base t' : STree)
    (hc : commitUpdates base edits = .ok t') (x : String) (n : NodeData)
    (h : nodeOf base x = some n) :
    ∃ n', nodeOf t' x = some n' ∧ n.version ≤ n'.version := by
  induction edits generalizing base n with
  | nil =>
    rw [commitUpdates] at hc
    injection hc with hc
    subst hc
    exact ⟨n, h, le_rfl⟩
  | cons q rest ih =>
    obtain ⟨r, p⟩ := q
    rw [commitUpdates] at hc
    cases hu : updateParams base r p with
    | error e => rw [hu] at hc; simp at hc
    | ok b1 =>
      rw [hu] at hc
      replace hc : commitUpdates b1 rest = .ok t' := hc
      obtain ⟨hb1, u, hfind⟩ := updateParams_ok base r p b1 hu
      subst hb1
      have hn1 : nodeOf (updT r p base) x =
          some (if n.ref = r then bumpWith p n else n) := by
        rw [nodeOf_updT, h, Option.map_some']
      have hv : n.version ≤ (if n.ref = r then bumpWith p n else n).version := by
        split
        · exact Nat.le_succ _
        · exact le_rfl
      obtain ⟨n', hn', hle⟩ := ih _ hc _ hn1
      exact ⟨n', hn', le_trans hv hle⟩

/-- C3: for every transaction made only of `updateParams` calls that
commits, every ref not updated by the transaction keeps its node, its
parent pointer and its ordered children list equal to the base tree's
(structural sharing), and every updated ref's version counter strictly
increases. -/
theorem commitUpdates_stability (edits : List (String × Params)) (base t' : STree)
    (hc : commitUpdates base edits = .ok t') :
    (∀ x, (∀ q ∈ edits, q.1 ≠ x) →
      nodeOf t' x = nodeOf base x ∧ parentT t' x = parentT base x ∧
      childRefsOf t' x = childRefsOf base x) ∧
    (∀ q ∈ edits, ∀ n n', nodeOf base q.1 = some n → nodeOf t' q.1 = some n' →
      n.version < n'.version) := by
  induction edits generalizing base with
  | nil =>
    rw [commitUpdates] at hc
    injection hc with hc
    subst hc
    exact ⟨fun x _ => ⟨rfl, rfl, rfl⟩, fun q hq => absurd hq (List.not_mem_nil q)⟩
  | cons q0 rest ih =>
    obtain ⟨r, p⟩ := q0
    rw [commitUpdates] at hc
    cases hu : updateParams base r p with
    | error e => rw [hu] at hc; simp at hc
    | ok b1 =>
      rw [hu] at hc
      replace hc : commitUpdates b1 rest = .ok t' := hc
      obtain ⟨hb1, u, hfind⟩ := updateParams_ok base r p b1 hu
      subst hb1
      constructor
      · intro x hx
        have hrx : r ≠ x := hx (r, p) (List.mem_cons_self _ _)
        have hrest := (ih _ hc).1 x (fun q hq => hx q (List.mem_cons_of_mem _ hq))
        refine ⟨?_, ?_, ?_⟩
        · rw [hrest.1, nodeOf_updT]
          cases hn : nodeOf base x with
          | none => rfl
          | some n =>
            have hnx : n.ref = x := nodeOf_some_ref base x n hn
            rw [Option.map_some', if_neg (fun hh => hrx (hnx.symm.trans hh).symm)]
        · rw [hrest.2.1, parentT_updT]
        · rw [hrest.2.2, childRefsOf_updT]
      · intro q hq n n' hn hn'
        rcases List.mem_cons.mp hq with hq | hq
        · subst hq
          have hnr : n.ref = r := nodeOf_some_ref base r n hn
          have hn1 : nodeOf (updT r p base) r = some (bumpWith p n) := by
            rw [nodeOf_updT, hn, Option.map_some', if_pos hnr]
          obtain ⟨m, hm, hle⟩ := commitUpdates_version_mono rest _ _ hc r
            (bumpWith p n) hn1
          rw [hn'] at hm
          injection hm with hm
          subst hm
          exact lt_of_lt_of_le (Nat.lt_succ_self n.version) hle
        · have hn1 : nodeOf (updT r p base) q.1 =
              some (if n.ref = r then bumpWith p n else n) := by
            rw [nodeOf_updT, hn, Option.map_some']
          have h2 := (ih _ hc).2 q hq _ n' hn1 hn'
          have hv : n.version ≤ (if n.ref = r then bumpWith p n else n).version := by
            split
            · exact Nat.le_succ _
            · exact le_rfl
          exact lt_of_le_of_lt hv h2

/-- Witness for `commitUpdates_stability`: the scenario's
`updateParams(sq, {a:15})` transaction on `tree1`. -/
theorem commitUpdates_stability_witness :
    (∀ x, (∀ q ∈ ([("sq", [("a", 15)])] : List (String × Params)), q.1 ≠ x) →
      nodeOf tree2 x = nodeOf tree1 x ∧ parentT tree2 x = parentT tree1 x ∧
      childRefsOf tree2 x = childRefsOf tree1 x) ∧
    (∀ q ∈ ([("sq", [("a", 15)])] : List (String × Params)), ∀ n n',
      nodeOf tree1 q.1 = some n → nodeOf tree2 q.1 = some n' →
      n.version < n'.version) :=
  commitUpdates_stability [("sq", [("a", 15)])] tree1 tree2 (by rfl)

/-! ## Theorems: cycle rejection and transaction atomicity -/

theorem applyEdits_append (t : STree) (es₁ es₂ : List Edit) :
    applyEdits t (es₁ ++ es₂) =
      match applyEdits t es₁ with
      | .ok t₁ => applyEdits t₁ es₂
      | .error e => .error e := by
  induction es₁ generalizing t with
  | nil => rfl
  | cons e es ih =>
    rw [List.cons_append, applyEdits, applyEdits]
    cases h : applyEdit t e with
    | ok t₁ => exact ih t₁
    | error err => rfl

theorem reparent_cycle (t : STree) (r p : String)
    (h : p = r ∨ ∃ u, findT t r = some u ∧ p ∈ refsF u.children) :
    reparent t r p = .error .cycle := by
  unfold reparent
  rcases h with h | ⟨u, hu, hp⟩
  · rw [if_pos h]
  · by_cases hpr : p = r
    · rw [if_pos hpr]
    · rw [if_neg hpr, hu]
      show (if p ∈ refsF u.children then Except.error TreeError.cycle
            else match findT t p with
                 | none => Except.error TreeError.unknownParent
                 | some _ => Except.ok (graftT (delT t r) p u)) =
          Except.error TreeError.cycle
      rw [if_pos hp]

/-- C7: a `reparent(r, p)` whose target `p` is `r` itself or a
descendant of `r` (at the point the edit runs) always fails with the
`Cycle` error, and the whole transaction containing it is rejected: the
committed tree is exactly the base tree, with no partial structural
mutation. -/
theorem reparent_cycle_atomic (base : STree) (pre post : List Edit) (r p : String)
    (hcyc : ∀ t, applyEdits base pre = .ok t →
      p = r ∨ ∃ u, findT t r = some u ∧ p ∈ refsF u.children) :
    (∀ t, applyEdits base pre = .ok t →
      applyEdit t (.reparent r p) = .error .cycle) ∧
    commitTx base (pre ++ Edit.reparent r p :: post) = base := by
  have hfail : ∀ t, applyEdits base pre = .ok t →
      applyEdit t (.reparent r p) = .error .cycle :=
    fun t ht => reparent_cycle t r p (hcyc t ht)
  refine ⟨hfail, ?_⟩
  unfold commitTx
  rw [applyEdits_append]
  cases h : applyEdits base pre with
  | error e => rfl
  | ok t =>
    show (match (match applyEdit t (.reparent r p) with
                 | .ok t' => applyEdits t' post
                 | .error err => .error err) with
          | .ok t' => t'
          | .error _ => base) = base
    rw [hfail t h]

/-- Witness for `reparent_cycle_atomic`: reparenting `sq` under its
descendant `area` in the scenario tree. -/
theorem reparent_cycle_atomic_witness :
    (∀ t, applyEdits tree1 [] = .ok t →
      applyEdit t (.reparent "sq" "area") = .error .cycle) ∧
    commitTx tree1 ([] ++ Edit.reparent "sq" "area" :: []) = tree1 :=
  reparent_cycle_atomic tree1 [] [] "sq" "area"
    (fun t ht => by
      injection ht with ht
      subst ht
      exact Or.inr ⟨.node ⟨"sq", "create-square", [("a", 10)], 0, {}⟩
        [.node ⟨"area", "calc-area", [], 0, {}⟩ []],
        by rfl, by simp [STree.children, refsF, refsT]⟩)

/-! ## Theorems: short-circuit propagation -/

mutual

theorem settleT_keys (fails : String → Bool) (po : Bool) (t : STree) :
    (settleT fails po t).map Prod.fst = refsT t := by
  cases t with
  | node d cs =>
    rw [settleT, refsT]
    cases po with
    | false => rw [if_neg (by simp), List.map_cons, settleF_keys]
    | true =>
      by_cases hf : fails d.ref
      · rw [if_pos rfl, if_pos hf, List.map_cons, settleF_keys]
      · rw [if_pos rfl, if_neg hf, List.map_cons, settleF_keys]

theorem settleF_keys (fails : String → Bool) (po : Bool) (cs : List STree) :
    (settleF fails po cs).map Prod.fst = refsF cs := by
  cases cs with
  | nil => rfl
  | cons t ts =>
    rw [settleF, refsF, List.map_append, settleT_keys, settleF_keys]

end

theorem statusOf_append (l₁ l₂ : List (String × CellStatus)) (x : String) :
    statusOf (l₁ ++ l₂) x =
      match statusOf l₁ x with
      | some v => some v
      | none => statusOf l₂ x := by
  induction l₁ with
  | nil => rfl
  | cons kv rest ih =>
    obtain ⟨k, v⟩ := kv
    rw [List.cons_append, statusOf, statusOf]
    by_cases h : k = x
    · rw [if_pos h, if_pos h]
    · rw [if_neg h, if_neg h, ih]

theorem statusOf_not_mem (l : List (String × CellStatus)) (x : String)
    (h : x ∉ l.map Prod.fst) : statusOf l x = none := by
  induction l with
  | nil => rfl
  | cons kv rest ih =>
    obtain ⟨k, v⟩ := kv
    rw [List.map_cons, List.mem_cons] at h
    push_neg at h
    rw [statusOf, if_neg (fun hh => h.1 hh.symm), ih h.2]

mutual

theorem findT_isSome_of_mem (t : STree) (r : String) (h : r ∈ refsT t) :
    (findT t r).isSome := by
  cases t with
  | node d cs =>
    rw [refsT, List.mem_cons] at h
    rw [findT]
    by_cases hd : d.ref = r
    · rw [if_pos hd]; rfl
    · rw [if_neg hd]
      exact findF_isSome_of_mem cs r (h.resolve_left (fun hh => hd hh.symm))

theorem findF_isSome_of_mem (cs : List STree) (r : String) (h : r ∈ refsF cs) :
    (findF cs r).isSome := by
  cases cs with
  | nil => simp [refsF] at h
  | cons t ts =>
    rw [refsF, List.mem_append] at h
    rw [findF]
    cases hv : findT t r with
    | some w => rfl
    | none =>
      rcases h with h | h
      · have := findT_isSome_of_mem t r h
        rw [hv] at this
        simp at this
      · exact findF_isSome_of_mem ts r h

end

mutual

theorem findT_refs_subset (t : STree) (r : String) (u : STree)
    (h : findT t r = some u) : ∀ y ∈ refsT u, y ∈ refsT t := by
  cases t with
  | node d cs =>
    rw [findT] at h
    by_cases hd : d.ref = r
    · rw [if_pos hd] at h
      cases h
      exact fun y hy => hy
    · rw [if_neg hd] at h
      intro y hy
      rw [refsT, List.mem_cons]
      exact Or.inr (findF_refs_subset cs r u h y hy)

theorem findF_refs_subset (cs : List STree) (r : String) (u : STree)
    (h : findF cs r = some u) : ∀ y ∈ refsT u, y ∈ refsF cs := by
  cases cs with
  | nil => simp [findF] at h
  | cons t ts =>
    rw [findF] at h
    intro y hy
    rw [refsF, List.mem_append]
    cases hv : findT t r with
    | some w =>
      rw [hv] at h
      injection h with h
      exact Or.inl (findT_refs_subset t r u (h ▸ hv) y hy)
    | none =>
      rw [hv] at h
      exact Or.inr (findF_refs_subset ts r u h y hy)

end

theorem findT_mem (t : STree) (r : String) (u : STree) (h : findT t r = some u) :
    r ∈ refsT t := by
  have h1 := findT_some_ref t r u h
  have h2 := findT_refs_subset t r u h r
  apply h2
  cases u with
  | node d cs =>
    rw [refsT, List.mem_cons]
    exact Or.inl h1.symm

theorem findF_mem (cs : List STree) (r : String) (u : STree)
    (h : findF cs r = some u) : r ∈ refsF cs := by
  have h1 := findF_some_ref cs r u h
  have h2 := findF_refs_subset cs r u h r
  apply h2
  cases u with
  | node d cs' =>
    rw [refsT, List.mem_cons]
    exact Or.inl h1.symm

mutual

theorem settleT_false_pending (fails : String → Bool) (t : STree) (x : String)
    (h : x ∈ refsT t) : statusOf (settleT fails false t) x = some .pending := by
  cases t with
  | node d cs =>
    rw [settleT, if_neg (by simp), statusOf]
    by_cases hd : d.ref = x
    · rw [if_pos hd]
    · rw [if_neg hd]
      rw [refsT, List.mem_cons] at h
      exact settleF_false_pending fails cs x
        (h.resolve_left (fun hh => hd hh.symm))

theorem settleF_false_pending (fails : String → Bool) (cs : List STree) (x : String)
    (h : x ∈ refsF cs) : statusOf (settleF fails false cs) x = some .pending := by
  cases cs with
  | nil => simp [refsF] at h
  | cons t ts =>
    rw [settleF, statusOf_append]
    by_cases hx : x ∈ refsT t
    · rw [settleT_false_pending fails t x hx]
    · rw [statusOf_not_mem _ x (by rw [settleT_keys]; exact hx)]
      rw [refsF, List.mem_append] at h
      exact settleF_false_pending fails ts x (h.resolve_left hx)

end

theorem statusOf_mem_isSome (l : List (String × CellStatus)) (x : String)
    (h : x ∈ l.map Prod.fst) : (statusOf l x).isSome := by
  induction l with
  | nil => simp at h
  | cons kv rest ih =>
    obtain ⟨k, v⟩ := kv
    rw [statusOf]
    by_cases hk : k = x
    · rw [if_pos hk]; rfl
    · rw [if_neg hk]
      rw [List.map_cons, List.mem_cons] at h
      exact ih (h.resolve_left (fun hh => hk hh.symm))

theorem refsF_children_subset (u : STree) (x : String)
    (h : x ∈ refsF u.children) : x ∈ refsT u := by
  cases u with
  | node d cs =>
    rw [refsT, List.mem_cons]
    exact Or.inr h

mutual

theorem settleT_congr (fails fails' : String → Bool) (po : Bool) (t : STree)
    (h : ∀ y ∈ refsT t, fails y = fails' y) :
    settleT fails po t = settleT fails' po t := by
  cases t with
  | node d cs =>
    have hd : fails d.ref = fails' d.ref :=
      h d.ref (by rw [refsT]; exact List.mem_cons_self _ _)
    have hcs : ∀ y ∈ refsF cs, fails y = fails' y :=
      fun y hy => h y (by rw [refsT]; exact List.mem_cons_of_mem _ hy)
    cases po with
    | false =>
      rw [settleT, settleT, if_neg (by simp), if_neg (by simp),
          settleF_congr fails fails' false cs hcs]
    | true =>
      rw [settleT, settleT, if_pos rfl, if_pos rfl]
      by_cases hf : fails' d.ref = true
      · rw [if_pos (hd.symm ▸ hf), if_pos hf,
            settleF_congr fails fails' false cs hcs]
      · rw [if_neg (hd.symm ▸ hf), if_neg hf,
            settleF_congr fails fails' true cs hcs]

theorem settleF_congr (fails fails' : String → Bool) (po : Bool) (cs : List STree)
    (h : ∀ y ∈ refsF cs, fails y = fails' y) :
    settleF fails po cs = settleF fails' po cs := by
  cases cs with
  | nil => rfl
  | cons t ts =>
    rw [settleF, settleF,
        settleT_congr fails fails' po t
          (fun y hy => h y (by rw [refsF, List.mem_append]; exact Or.inl hy)),
        settleF_congr fails fails' po ts
          (fun y hy => h y (by rw [refsF, List.mem_append]; exact Or.inr hy))]

end

mutual

theorem settleT_error_desc (fails : String → Bool) (po : Bool) (t : STree)
    (r : String) (hnd : (refsT t).Nodup) (u : STree) (hu : findT t r = some u)
    (herr : statusOf (settleT fails po t) r = some .error) :
    ∀ x ∈ refsF u.children, statusOf (settleT fails po t) x = some .pending := by
  cases t with
  | node d cs =>
    rw [refsT, List.nodup_cons] at hnd
    rw [findT] at hu
    by_cases hd : d.ref = r
    · rw [if_pos hd] at hu
      cases hu
      intro x hx
      have hx' : x ∈ refsF cs := hx
      cases po with
      | false =>
        rw [settleT, if_neg (by simp), statusOf, if_pos hd] at herr
        simp at herr
      | true =>
        cases hf : fails d.ref with
        | true =>
          rw [settleT, if_pos rfl, if_pos hf, statusOf]
          have hdx : d.ref ≠ x := fun hh => hnd.1 (hh ▸ hx')
          rw [if_neg hdx]
          exact settleF_false_pending fails cs x hx'
        | false =>
          rw [settleT, if_pos rfl, if_neg (by simp [hf]), statusOf,
              if_pos hd] at herr
          simp at herr
    · rw [if_neg hd] at hu
      intro x hx
      have hxu : x ∈ refsT u := refsF_children_subset u x hx
      have hxcs : x ∈ refsF cs := findF_refs_subset cs r u hu x hxu
      have hdx : d.ref ≠ x := fun hh => hnd.1 (hh ▸ hxcs)
      have hrcs : r ∈ refsF cs := findF_mem cs r u hu
      cases po with
      | false =>
        rw [settleT, if_neg (by simp), statusOf, if_neg hd,
            settleF_false_pending fails cs r hrcs] at herr
        simp at herr
      | true =>
        cases hf : fails d.ref with
        | true =>
          rw [settleT, if_pos rfl, if_pos hf, statusOf, if_neg hd,
              settleF_false_pending fails cs r hrcs] at herr
          simp at herr
        | false =>
          rw [settleT, if_pos rfl, if_neg (by simp [hf]), statusOf,
              if_neg hd] at herr
          have hmain := settleF_error_desc fails true cs r hnd.2 u hu herr x hx
          rw [settleT, if_pos rfl, if_neg (by simp [hf]), statusOf, if_neg hdx]
          exact hmain

theorem settleF_error_desc (fails : String → Bool) (po : Bool) (cs : List STree)
    (r : String) (hnd : (refsF cs).Nodup) (u : STree) (hu : findF cs r = some u)
    (herr : statusOf (settleF fails po cs) r = some .error) :
    ∀ x ∈ refsF u.children, statusOf (settleF fails po cs) x = some .pending := by
  cases cs with
  | nil => simp [findF] at hu
  | cons t ts =>
    rw [findF] at hu
    rw [refsF] at hnd
    have hnd1 : (refsT t).Nodup := hnd.of_append_left
    have hnd2 : (refsF ts).Nodup := hnd.of_append_right
    have hdisj := List.disjoint_of_nodup_append hnd
    intro x hx
    have hxu : x ∈ refsT u := refsF_children_subset u x hx
    cases hv : findT t r with
    | some w =>
      rw [hv] at hu
      injection hu with hu
      have hu' : findT t r = some u := hu ▸ hv
      have hrt : r ∈ refsT t := findT_mem t r u hu'
      have hxt : x ∈ refsT t := findT_refs_subset t r u hu' x hxu
      rw [settleF, statusOf_append] at herr
      cases hs : statusOf (settleT fails po t) r with
      | none =>
        have hsome := statusOf_mem_isSome (settleT fails po t) r
          (by rw [settleT_keys]; exact hrt)
        rw [hs] at hsome
        simp at hsome
      | some v =>
        rw [hs] at herr
        replace herr : some v = some CellStatus.error := herr
        injection herr with herr
        subst herr
        have hmain := settleT_error_desc fails po t r hnd1 u hu' hs x hx
        rw [settleF, statusOf_append, hmain]
    | none =>
      rw [hv] at hu
      have hxts : x ∈ refsF ts := findF_refs_subset ts r u hu x hxu
      have hrts : r ∈ refsF ts := findF_mem ts r u hu
      have hxnott : x ∉ refsT t := fun hh => hdisj hh hxts
      have hrnott : r ∉ refsT t := by
        intro hh
        have := findT_isSome_of_mem t r hh
        rw [hv] at this
        simp at this
      rw [settleF, statusOf_append,
          statusOf_not_mem _ r (by rw [settleT_keys]; exact hrnott)] at herr
      replace herr : statusOf (settleF fails po ts) r = some .error := herr
      have hmain := settleF_error_desc fails po ts r hnd2 u hu herr x hx
      rw [settleF, statusOf_append,
          statusOf_not_mem _ x (by rw [settleT_keys]; exact hxnott), hmain]

end

mutual

theorem settleT_local (fails fails' : String → Bool) (po : Bool) (t : STree)
    (r : String) (u : STree) (hnd : (refsT t).Nodup) (hu : findT t r = some u)
    (hagree : ∀ y ∈ refsT t, y ∉ refsT u → fails y = fails' y) :
    ∀ x ∈ refsT t, x ∉ refsT u →
      statusOf (settleT fails po t) x = statusOf (settleT fails' po t) x := by
  cases t with
  | node d cs =>
    rw [refsT, List.nodup_cons] at hnd
    rw [findT] at hu
    by_cases hd : d.ref = r
    · rw [if_pos hd] at hu
      cases hu
      intro x hx hxu
      exact absurd hx hxu
    · rw [if_neg hd] at hu
      have hdru : d.ref ∉ refsT u :=
        fun hh => hnd.1 (findF_refs_subset cs r u hu d.ref hh)
      have hdagree : fails d.ref = fails' d.ref :=
        hagree d.ref (by rw [refsT]; exact List.mem_cons_self _ _) hdru
      have hcsagree : ∀ y ∈ refsF cs, y ∉ refsT u → fails y = fails' y :=
        fun y hy hyu =>
          hagree y (by rw [refsT]; exact List.mem_cons_of_mem _ hy) hyu
      intro x hx hxu
      rw [refsT, List.mem_cons] at hx
      cases po with
      | false =>
        rw [settleT, settleT, if_neg (by simp), if_neg (by simp),
            statusOf, statusOf]
        by_cases hdx : d.ref = x
        · rw [if_pos hdx, if_pos hdx]
        · rw [if_neg hdx, if_neg hdx]
          exact settleF_local fails fails' false cs r u hnd.2 hu hcsagree x
            (hx.resolve_left (fun hh => hdx hh.symm)) hxu
      | true =>
        cases hf : fails d.ref with
        | true =>
          rw [settleT, settleT, if_pos rfl, if_pos rfl, if_pos hf,
              if_pos (hdagree ▸ hf), statusOf, statusOf]
          by_cases hdx : d.ref = x
          · rw [if_pos hdx, if_pos hdx]
          · rw [if_neg hdx, if_neg hdx]
            exact settleF_local fails fails' false cs r u hnd.2 hu hcsagree x
              (hx.resolve_left (fun hh => hdx hh.symm)) hxu
        | false =>
          rw [settleT, settleT, if_pos rfl, if_pos rfl,
              if_neg (by simp [hf]), if_neg (by simp [hdagree ▸ hf]),
              statusOf, statusOf]
          by_cases hdx : d.ref = x
          · rw [if_pos hdx, if_pos hdx]
          · rw [if_neg hdx, if_neg hdx]
            exact settleF_local fails fails' true cs r u hnd.2 hu hcsagree x
              (hx.resolve_left (fun hh => hdx hh.symm)) hxu

theorem settleF_local (fails fails' : String → Bool) (po : Bool) (cs : List STree)
    (r : String) (u : STree) (hnd : (refsF cs).Nodup) (hu : findF cs r = some u)
    (hagree : ∀ y ∈ refsF cs, y ∉ refsT u → fails y = fails' y) :
    ∀ x ∈ refsF cs, x ∉ refsT u →
      statusOf (settleF fails po cs) x = statusOf (settleF fails' po cs) x := by
  cases cs with
  | nil => simp [findF] at hu
  | cons t ts =>
    rw [findF] at hu
    rw [refsF] at hnd
    have hnd1 : (refsT t).Nodup := hnd.of_append_left
    have hnd2 : (refsF ts).Nodup := hnd.of_append_right
    have hdisj := List.disjoint_of_nodup_append hnd
    intro x hx hxu
    rw [refsF, List.mem_append] at hx
    cases hv : findT t r with
    | some w =>
      rw [hv] at hu
      injection hu with hu
      have hu' : findT t r = some u := hu ▸ hv
      have husub : ∀ y ∈ refsT u, y ∈ refsT t := findT_refs_subset t r u hu'
      have hts_eq : settleF fails po ts = settleF fails' po ts :=
        settleF_congr fails fails' po ts (fun y hy =>
          hagree y (by rw [refsF, List.mem_append]; exact Or.inr hy)
            (fun hyu => hdisj (husub y hyu) hy))
      rw [settleF, settleF, statusOf_append, statusOf_append, hts_eq]
      rcases hx with hxt | hxts
      · have htagree : ∀ y ∈ refsT t, y ∉ refsT u → fails y = fails' y :=
          fun y hy hyu =>
            hagree y (by rw [refsF, List.mem_append]; exact Or.inl hy) hyu
        rw [settleT_local fails fails' po t r u hnd1 hu' htagree x hxt hxu]
      · have hxnott : x ∉ refsT t := fun hh => hdisj hh hxts
        rw [statusOf_not_mem (settleT fails po t) x
              (by rw [settleT_keys]; exact hxnott),
            statusOf_not_mem (settleT fails' po t) x
              (by rw [settleT_keys]; exact hxnott)]
    | none =>
      rw [hv] at hu
      have husub : ∀ y ∈ refsT u, y ∈ refsF ts := findF_refs_subset ts r u hu
      have ht_eq : settleT fails po t = settleT fails' po t :=
        settleT_congr fails fails' po t (fun y hy =>
          hagree y (by rw [refsF, List.mem_append]; exact Or.inl hy)
            (fun hyu => hdisj hy (husub y hyu)))
      rw [settleF, settleF, statusOf_append, statusOf_append, ht_eq]
      rcases hx with hxt | hxts
      · have hsome := statusOf_mem_isSome (settleT fails' po t) x
          (by rw [settleT_keys]; exact hxt)
        obtain ⟨v, hv'⟩ := Option.isSome_iff_exists.mp hsome
        rw [hv']
      · have hxnott : x ∉ refsT t := fun hh => hdisj hh hxts
        rw [statusOf_not_mem _ x (by rw [settleT_keys]; exact hxnott)]
        have htsagree : ∀ y ∈ refsF ts, y ∉ refsT u → fails y = fails' y :=
          fun y hy hyu =>
            hagree y (by rw [refsF, List.mem_append]; exact Or.inr hy) hyu
        exact settleF_local fails fails' po ts r u hnd2 hu htsagree x hxts hxu

end

/-- C6: after reconciliation settles, every descendant of an `error`
cell is `pending` (never `ok`); and the error stays localized — the
status of every cell outside the failing subtree is unchanged if the
failure behaviour inside the subtree (the failing cell included) is
replaced arbitrarily, sibling subtrees being the typical case. -/
theorem settle_short_circuit (t : STree) (fails fails' : String → Bool)
    (r : String) (u : STree) (hnd : (refsT t).Nodup) (hu : findT t r = some u)
    (herr : statusOf (settleT fails true t) r = some .error)
    (hagree : ∀ y ∈ refsT t, y ∉ refsT u → fails y = fails' y) :
    (∀ x ∈ refsF u.children,
      statusOf (settleT fails true t) x = some .pending ∧
      statusOf (settleT fails true t) x ≠ some .ok) ∧
    (∀ x ∈ refsT t, x ∉ refsT u →
      statusOf (settleT fails true t) x = statusOf (settleT fails' true t) x) := by
  constructor
  · intro x hx
    have hp := settleT_error_desc fails true t r hnd u hu herr x hx
    exact ⟨hp, by rw [hp]; simp⟩
  · exact settleT_local fails fails' true t r u hnd hu hagree

/-- Witness for `settle_short_circuit`: the scenario tree with the
`sq` transform failing; its descendant `area` is pending, and the
root's status is insensitive to the failure bit of the subtree. -/
theorem settle_short_circuit_witness :
    (∀ x ∈ refsF (STree.node ⟨"sq", "create-square", [("a", 10)], 0, {}⟩
        [.node ⟨"area", "calc-area", [], 0, {}⟩ []]).children,
      statusOf (settleT (fun y => y == "sq") true tree1) x = some .pending ∧
      statusOf (settleT (fun y => y == "sq") true tree1) x ≠ some .ok) ∧
    (∀ x ∈ refsT tree1,
      x ∉ refsT (STree.node ⟨"sq", "create-square", [("a", 10)], 0, {}⟩
        [.node ⟨"area", "calc-area", [], 0, {}⟩ []]) →
      statusOf (settleT (fun y => y == "sq") true tree1) x =
      statusOf (settleT (fun _ => false) true tree1) x) :=
  settle_short_circuit tree1 (fun y => y == "sq") (fun _ => false) "sq"
    (.node ⟨"sq", "create-square", [("a", 10)], 0, {}⟩
      [.node ⟨"area", "calc-area", [], 0, {}⟩ []])
    (by decide) (by rfl) (by rfl)
    (by
      intro y hy hyu
      simp [tree1, refsT, refsF, rootNode] at hy
      simp [refsT, refsF] at hyu
      rcases hy with hy | hy | hy <;> subst hy
      · rfl
      · exact absurd rfl hyu.1
      · exact absurd rfl hyu.2)

/-! ## Theorems: serialization round trip -/

theorem refsF_append (as bs : List STree) :
    refsF (as ++ bs) = refsF as ++ refsF bs := by
  induction as with
  | nil => rfl
  | cons t ts ih => rw [List.cons_append, refsF, refsF, ih, List.append_assoc]

mutual

theorem graftT_not_mem (u : STree) (p : String) (s : STree)
    (h : p ∉ refsT u) : graftT u p s = u := by
  cases u with
  | node d cs =>
    rw [refsT, List.mem_cons] at h
    push_neg at h
    rw [graftT, if_neg (fun hh => h.1 hh.symm), graftF_not_mem cs p s h.2]

theorem graftF_not_mem (cs : List STree) (p : String) (s : STree)
    (h : p ∉ refsF cs) : graftF cs p s = cs := by
  cases cs with
  | nil => rfl
  | cons t ts =>
    rw [refsF, List.mem_append] at h
    push_neg at h
    rw [graftF, graftT_not_mem t p s h.1, graftF_not_mem ts p s h.2]

end

theorem graftF_append (as bs : List STree) (p : String) (s : STree) :
    graftF (as ++ bs) p s = graftF as p s ++ graftF bs p s := by
  induction as with
  | nil => rfl
  | cons t ts ih => rw [List.cons_append, graftF, graftF, ih, List.cons_append]

theorem refsF_single (s : STree) : refsF [s] = refsT s := by
  rw [refsF, refsF, List.append_nil]

mutual

theorem refsT_graftT_perm (u : STree) (p : String) (s : STree)
    (hnd : (refsT u).Nodup) (hp : p ∈ refsT u) :
    (refsT (graftT u p s)).Perm (refsT u ++ refsT s) := by
  cases u with
  | node d cs =>
    rw [refsT, List.nodup_cons] at hnd
    by_cases hd : d.ref = p
    · rw [graftT, if_pos hd, refsT, refsF_append, refsF_single, refsT,
          List.cons_append]
    · have hpcs : p ∈ refsF cs :=
        (List.mem_cons.mp hp).resolve_left (fun hh => hd hh.symm)
      rw [graftT, if_neg hd, refsT, refsT, List.cons_append]
      exact List.Perm.cons d.ref (refsF_graftF_perm cs p s hnd.2 hpcs)

theorem refsF_graftF_perm (cs : List STree) (p : String) (s : STree)
    (hnd : (refsF cs).Nodup) (hp : p ∈ refsF cs) :
    (refsF (graftF cs p s)).Perm (refsF cs ++ refsT s) := by
  cases cs with
  | nil => simp [refsF] at hp
  | cons t ts =>
    rw [refsF] at hnd hp
    have hdisj := List.disjoint_of_nodup_append hnd
    rw [graftF, refsF, refsF]
    by_cases hpt : p ∈ refsT t
    · have hpts : p ∉ refsF ts := fun hh => hdisj hpt hh
      rw [graftF_not_mem ts p s hpts]
      have h1 := (refsT_graftT_perm t p s hnd.of_append_left hpt).append_right
        (refsF ts)
      refine h1.trans ?_
      rw [List.append_assoc, List.append_assoc]
      exact List.Perm.append_left (refsT t) List.perm_append_comm
    · have hpts : p ∈ refsF ts := (List.mem_append.mp hp).resolve_left hpt
      rw [graftT_not_mem t p s hpt, List.append_assoc]
      exact List.Perm.append_left (refsT t)
        (refsF_graftF_perm ts p s hnd.of_append_right hpts)

end

mutual

theorem graftT_graftT (u : STree) (p q : String) (s s' : STree)
    (hq : q ∉ refsT u) :
    graftT (graftT u p s) q s' = graftT u p (graftT s q s') := by
  cases u with
  | node d cs =>
    rw [refsT, List.mem_cons] at hq
    push_neg at hq
    have hdq : d.ref ≠ q := fun hh => hq.1 hh.symm
    by_cases hd : d.ref = p
    · rw [graftT, if_pos hd, graftT, if_neg hdq, graftF_append,
          graftF_not_mem cs q s' hq.2, graftF, graftF, graftT, if_pos hd]
    · rw [graftT, if_neg hd, graftT, if_neg hdq,
          graftF_graftF cs p q s s' hq.2, graftT, if_neg hd]

theorem graftF_graftF (cs : List STree) (p q : String) (s s' : STree)
    (hq : q ∉ refsF cs) :
    graftF (graftF cs p s) q s' = graftF cs p (graftT s q s') := by
  cases cs with
  | nil => rfl
  | cons t ts =>
    rw [refsF, List.mem_append] at hq
    push_neg at hq
    rw [graftF, graftF, graftT_graftT t p q s s' hq.1,
        graftF_graftF ts p q s s' hq.2, graftF]

end

theorem graftManyT_nil (u : STree) (p : String) : graftManyT u p [] = u := rfl

theorem graftManyT_cons (u : STree) (p : String) (f : STree) (fs : List STree) :
    graftManyT u p (f :: fs) = graftManyT (graftT u p f) p fs := rfl

theorem graftManyT_graftT (u : STree) (p q : String) (s : STree)
    (fs : List STree) (hq : q ∉ refsT u) :
    graftManyT (graftT u p s) q fs = graftT u p (graftManyT s q fs) := by
  induction fs generalizing s with
  | nil => rfl
  | cons f fs' ih =>
    rw [graftManyT_cons, graftT_graftT u p q s f hq, ih (graftT s q f),
        graftManyT_cons]

theorem graftManyT_node (d : NodeData) (cs₀ fs : List STree) :
    graftManyT (.node d cs₀) d.ref fs = .node d (cs₀ ++ fs) := by
  induction fs generalizing cs₀ with
  | nil => rw [graftManyT_nil, List.append_nil]
  | cons f fs' ih =>
    rw [graftManyT_cons, graftT, if_pos rfl, ih (cs₀ ++ [f]), List.append_assoc]
    rfl

mutual

theorem refsT_resetT (t : STree) : refsT (resetT t) = refsT t := by
  cases t with
  | node d cs => rw [resetT, refsT, refsT, refsF_resetF cs]

theorem refsF_resetF (cs : List STree) : refsF (resetF cs) = refsF cs := by
  cases cs with
  | nil => rfl
  | cons t ts => rw [resetF, refsF, refsF, refsT_resetT t, refsF_resetF ts]

end

mutual

theorem serT_resetT (p : String) (t : STree) : serT p (resetT t) = serT p t := by
  cases t with
  | node d cs =>
    rw [resetT, serT, serT, serF_resetF d.ref cs]
    rfl

theorem serF_resetF (p : String) (cs : List STree) :
    serF p (resetF cs) = serF p cs := by
  cases cs with
  | nil => rfl
  | cons t ts => rw [resetF, serF, serF, serT_resetT p t, serF_resetF p ts]

end

mutual

theorem shapeT_resetT (t : STree) : shapeT (resetT t) = shapeT t := by
  cases t with
  | node d cs => rw [resetT, shapeT, shapeT, shapeF_resetF cs]

theorem shapeF_resetF (cs : List STree) : shapeF (resetF cs) = shapeF cs := by
  cases cs with
  | nil => rfl
  | cons t ts => rw [resetF, shapeF, shapeF, shapeT_resetT t, shapeF_resetF ts]

end

theorem resetT_data_ref (t : STree) : (resetT t).data.ref = t.data.ref := by
  cases t with
  | node d cs => rfl

theorem rebuild_cons (u : STree) (r : SerRecord) (rs : List SerRecord) :
    rebuild u (r :: rs) = rebuild (insRec u r) rs := rfl

mutual

theorem rebuild_serT (t : STree) (p : String) (u : STree) (rest : List SerRecord)
    (hndt : (refsT t).Nodup) (hndu : (refsT u).Nodup)
    (hdisj : ∀ y ∈ refsT t, y ∉ refsT u) (hp : p ∈ refsT u) :
    rebuild u (serT p t ++ rest) = rebuild (graftT u p (resetT t)) rest := by
  cases t with
  | node d cs =>
    rw [refsT, List.nodup_cons] at hndt
    have hdref : d.ref ∉ refsT u :=
      hdisj d.ref (by rw [refsT]; exact List.mem_cons_self _ _)
    rw [serT, List.cons_append, rebuild_cons]
    have hins : insRec u (recOf p d) =
        graftT u p (.node ⟨d.ref, d.kind, d.params, 0, d.flags⟩ []) := rfl
    rw [hins]
    have hperm := refsT_graftT_perm u p
      (.node ⟨d.ref, d.kind, d.params, 0, d.flags⟩ []) hndu hp
    have hleafrefs :
        refsT (STree.node (⟨d.ref, d.kind, d.params, 0, d.flags⟩ : NodeData) [])
          = [d.ref] := rfl
    rw [hleafrefs] at hperm
    have hndu₁ :
        (refsT (graftT u p (.node ⟨d.ref, d.kind, d.params, 0, d.flags⟩ []))).Nodup := by
      rw [hperm.nodup_iff]
      exact hndu.append (List.nodup_singleton _)
        (fun a ha hb => hdref ((List.mem_singleton.mp hb) ▸ ha))
    have hmem₁ : ∀ y,
        y ∈ refsT (graftT u p (.node ⟨d.ref, d.kind, d.params, 0, d.flags⟩ []))
          ↔ (y ∈ refsT u ∨ y = d.ref) := fun y => by
      rw [hperm.mem_iff, List.mem_append, List.mem_singleton]
    have hdisj₁ : ∀ y ∈ refsF cs,
        y ∉ refsT (graftT u p (.node ⟨d.ref, d.kind, d.params, 0, d.flags⟩ [])) := by
      intro y hy
      rw [hmem₁ y]
      rintro (h | h)
      · exact hdisj y (by rw [refsT]; exact List.mem_cons_of_mem _ hy) h
      · exact hndt.1 (h ▸ hy)
    have hp₁ : d.ref ∈
        refsT (graftT u p (.node ⟨d.ref, d.kind, d.params, 0, d.flags⟩ [])) :=
      (hmem₁ d.ref).mpr (Or.inr rfl)
    rw [rebuild_serF cs d.ref _ rest hndt.2 hndu₁ hdisj₁ hp₁]
    congr 1
    rw [graftManyT_graftT u p d.ref _ (resetF cs) hdref]
    have h2 : graftManyT
        (STree.node (⟨d.ref, d.kind, d.params, 0, d.flags⟩ : NodeData) [])
        d.ref (resetF cs) =
        STree.node ⟨d.ref, d.kind, d.params, 0, d.flags⟩ ([] ++ resetF cs) :=
      graftManyT_node _ _ _
    rw [h2]
    rfl

theorem rebuild_serF (ts : List STree) (p : String) (u : STree) (rest : List SerRecord)
    (hndt : (refsF ts).Nodup) (hndu : (refsT u).Nodup)
    (hdisj : ∀ y ∈ refsF ts, y ∉ refsT u) (hp : p ∈ refsT u) :
    rebuild u (serF p ts ++ rest) = rebuild (graftManyT u p (resetF ts)) rest := by
  cases ts with
  | nil => rfl
  | cons t ts' =>
    rw [serF, List.append_assoc]
    rw [refsF] at hndt
    have hnd1 : (refsT t).Nodup := hndt.of_append_left
    have hnd2 : (refsF ts').Nodup := hndt.of_append_right
    have hdisjT := List.disjoint_of_nodup_append hndt
    rw [rebuild_serT t p u (serF p ts' ++ rest) hnd1 hndu
      (fun y hy => hdisj y (by rw [refsF, List.mem_append]; exact Or.inl hy)) hp]
    have hperm := refsT_graftT_perm u p (resetT t) hndu hp
    rw [refsT_resetT] at hperm
    have hndu₂ : (refsT (graftT u p (resetT t))).Nodup := by
      rw [hperm.nodup_iff]
      exact hndu.append hnd1
        (fun a ha hb =>
          hdisj a (by rw [refsF, List.mem_append]; exact Or.inl hb) ha)
    have hp₂ : p ∈ refsT (graftT u p (resetT t)) :=
      hperm.mem_iff.mpr (List.mem_append.mpr (Or.inl hp))
    have hdisj₂ : ∀ y ∈ refsF ts', y ∉ refsT (graftT u p (resetT t)) := by
      intro y hy
      rw [hperm.mem_iff, List.mem_append]
      rintro (h | h)
      · exact hdisj y (by rw [refsF, List.mem_append]; exact Or.inr hy) h
      · exact hdisjT h hy
    rw [rebuild_serF ts' p (graftT u p (resetT t)) rest hnd2 hndu₂ hdisj₂ hp₂]
    rfl

end

/-- C2: serialization round trip — for every tree with distinct
reference ids, `fromSerializable (toSerializable t)` reconstructs
exactly the tree with every version counter reset to 0; the serialized
format is insensitive to versions (they are not part of it), and the
reset keeps the reference ids and the node shapes (kind, params, flags,
pre-order structure) intact. -/
theorem serialization_round_trip (t : STree) (hnd : (refsT t).Nodup) :
    fromSerializable (toSerializable t) = some (resetT t) ∧
    toSerializable (resetT t) = toSerializable t ∧
    refsT (resetT t) = refsT t ∧
    shapeT (resetT t) = shapeT t := by
  refine ⟨?_, ?_, refsT_resetT t, shapeT_resetT t⟩
  · cases t with
    | node d cs =>
      rw [refsT, List.nodup_cons] at hnd
      show (if (recOf d.ref d).ref = d.ref then
          some (rebuild (leafOf (recOf d.ref d)) (serF d.ref cs)) else none)
        = some (resetT (STree.node d cs))
      rw [if_pos (show (recOf d.ref d).ref = d.ref from rfl)]
      have hh := rebuild_serF cs d.ref (leafOf (recOf d.ref d)) [] hnd.2
        (List.nodup_singleton d.ref)
        (fun y hy hmem => hnd.1 ((List.mem_singleton.mp hmem) ▸ hy))
        (List.mem_singleton.mpr rfl)
      rw [List.append_nil] at hh
      rw [hh]
      have h2 : graftManyT (leafOf (recOf d.ref d)) d.ref (resetF cs) =
          STree.node ⟨d.ref, d.kind, d.params, 0, d.flags⟩ ([] ++ resetF cs) :=
        graftManyT_node _ _ _
      rw [h2]
      rfl
  · unfold toSerializable
    rw [resetT_data_ref, serT_resetT]

/-- Witness for `serialization_round_trip` at the scenario tree. -/
theorem serialization_round_trip_witness :
    fromSerializable (toSerializable tree1) = some (resetT tree1) ∧
    toSerializable (resetT tree1) = toSerializable tree1 ∧
    refsT (resetT tree1) = refsT tree1 ∧
    shapeT (resetT tree1) = shapeT tree1 :=
  serialization_round_trip tree1 (by decide)

/-! ## Theorems: the square/area scenario -/

/-- C1: committing `applyTransform(R, create-square, {a:10}, ref sq)`
then `applyTransform(sq, calc-area, {})` and reconciling yields cell
`sq` ok with object `{a:10}` and its child cell ok with `{volume:100}`;
committing `updateParams(sq, {a:15})` and reconciling makes `sq`'s
object `{a:15}` via the `Updated` result (same cell, keyed by the same
ref) and the area cell's object `{volume:225}`, emitting exactly one
`updated` event for each of the two cells. -/
theorem square_area_scenario :
    scenBuild = .ok tree1 ∧
    updateParams tree1 "sq" [("a", 15)] = .ok tree2 ∧
    lookupCell cells1 "sq" =
      some ⟨"sq", .ok, some (.square "Square a=10" 10), [("a", 10)]⟩ ∧
    lookupCell cells1 "area" =
      some ⟨"area", .ok, some (.area "Area" 100), []⟩ ∧
    lookupCell (reconcile cells1 rootObj tree2).1 "sq" =
      some ⟨"sq", .ok, some (.square "Square a=15" 15), [("a", 15)]⟩ ∧
    lookupCell (reconcile cells1 rootObj tree2).1 "area" =
      some ⟨"area", .ok, some (.area "Area" 225), []⟩ ∧
    (reconcile cells1 rootObj tree2).2 = [.updated "sq", .updated "area"] :=
  ⟨rfl, rfl, rfl, rfl, rfl, rfl, rfl⟩

end Molstar
